import Mathlib

/-!
Verification of the Othello engine (`othelo.py`, `bot.py`, `main.py`).

The board is the 8×8 grid of cells holding `0` (empty), `1` (player +1) or
`-1` (player −1), together with a `current_player` field.  Python floats only
ever hold integer multiples of `1/2` here, so they are modelled by `ℚ`; the
sentinels `float('-inf')` / `float('inf')` used by the search are modelled by
the bottom and top elements of `WithBot (WithTop ℚ)`.

The search mutates the shared board through `apply_move` / `undo_move` pairs;
the embedding threads the game state explicitly through every call, so the
stateful functions below return both their value and the final state of the
shared game object.
-/

/-- Search values: rationals extended with `-inf` and `+inf`. -/
abbrev Score : Type := WithBot (WithTop ℚ)

/-- Embed an ordinary (finite) number into `Score`. -/
def toScore (q : ℚ) : Score := ((q : WithTop ℚ) : Score)

/-- The 8×8 grid of cell contents. -/
abbrev Board : Type := Fin 8 → Fin 8 → ℤ

/-- Python's `0 <= nr < 8 and 0 <= nc < 8` bounds test. -/
def inBd (r c : ℤ) : Prop := 0 ≤ r ∧ r < 8 ∧ 0 ≤ c ∧ c < 8

instance (r c : ℤ) : Decidable (inBd r c) := by unfold inBd; infer_instance

/-- Read `board[r][c]`.  The Python code only ever reads inside the bounds it
has just checked; out-of-range reads return the junk value `2`, which is
never a disc value. -/
def getCell (b : Board) (r c : ℤ) : ℤ :=
  if h : 0 ≤ r ∧ r < 8 ∧ 0 ≤ c ∧ c < 8 then
    b ⟨r.toNat, by omega⟩ ⟨c.toNat, by omega⟩ else 2

/-- Write `board[r][c] = v` (no effect on out-of-range coordinates, which the
Python code never produces for writes). -/
def setCell (b : Board) (r c v : ℤ) : Board :=
  fun i j => if ((i : ℤ) = r ∧ (j : ℤ) = c) then v else b i j

/-- Every cell holds `0`, `1` or `-1`. -/
def ValidBoard (b : Board) : Prop :=
  ∀ r c : Fin 8, b r c = 0 ∨ b r c = 1 ∨ b r c = -1

instance (b : Board) : Decidable (ValidBoard b) := by
  unfold ValidBoard; infer_instance

/-- The shared game object of `othelo.py`: the board plus whose turn it is. -/
structure Game where
  board : Board
  current_player : ℤ

/-- A game state with disc-valued cells and a two-valued turn marker; every
state reachable from the initial configuration satisfies this. -/
def ValidGame (g : Game) : Prop :=
  ValidBoard g.board ∧ (g.current_player = 1 ∨ g.current_player = -1)

instance (g : Game) : Decidable (ValidGame g) := by
  unfold ValidGame; infer_instance

/-- The eight scan directions, in the order both Python files list them. -/
def directions : List (ℤ × ℤ) :=
  [(-1, -1), (-1, 0), (-1, 1), (0, -1), (0, 1), (1, -1), (1, 0), (1, 1)]

/-- The board built by `Othello.__init__`: four centre discs, `1` on the main
diagonal. -/
def initialBoard : Board := fun r c =>
  if (r = 3 ∧ c = 3) ∨ (r = 4 ∧ c = 4) then 1
  else if (r = 3 ∧ c = 4) ∨ (r = 4 ∧ c = 3) then -1
  else 0

/-- The game as created by `Othello.__init__` (player +1 to move). -/
def initialGame : Game := ⟨initialBoard, 1⟩

/-- The inner `while` loop of `Othello.valid_moves`: walk from `(nr, nc)` in
direction `(dr, dc)`; report `true` when a disc of `player` is reached before
an empty cell or the edge of the board.  A walk moves one step per iteration,
so 16 iterations always leave the board; the fuel is never exhausted while
the position is still in range. -/
def walkFindsPlayer (b : Board) (player : ℤ) :
    ℤ → ℤ → ℤ → ℤ → Nat → Bool
  | _, _, _, _, 0 => false
  | nr, nc, dr, dc, fuel + 1 =>
    if inBd nr nc then
      if getCell b nr nc = 0 then false
      else if getCell b nr nc = player then true
      else walkFindsPlayer b player (nr + dr) (nc + dc) dr dc fuel
    else false

/-- One direction of the scan in `Othello.valid_moves`: the neighbour must be
an opposing disc and the continued walk must reach a disc of `player`. -/
def dirCaptures (b : Board) (player r c dr dc : ℤ) : Bool :=
  if inBd (r + dr) (c + dc) ∧ getCell b (r + dr) (c + dc) = -player then
    walkFindsPlayer b player (r + dr) (c + dc) dr dc 16
  else false

/-- `Othello.valid_moves`: every empty cell that captures in some direction,
appended once per capturing direction and de-duplicated at the end
(`list(set(moves))`; Python's set order is unspecified, `List.dedup` fixes
one order). -/
def valid_moves (b : Board) (player : ℤ) : List (ℤ × ℤ) :=
  (((List.range 8).flatMap fun r =>
    (List.range 8).flatMap fun c =>
      if getCell b (r : ℤ) (c : ℤ) = 0 then
        (directions.filter fun d =>
          dirCaptures b player (r : ℤ) (c : ℤ) d.1 d.2).map
          fun _ => ((r : ℤ), (c : ℤ))
      else []).dedup)

/-- `Othello.has_valid_move`. -/
def has_valid_move (b : Board) (player : ℤ) : Bool :=
  valid_moves b player ≠ []

/-- The collecting `while` loop shared by `Othello.make_move` and
`OthelloAI.apply_move`: walk from `(nr, nc)`, gathering the visited opposing
discs; return `some` collected list when the walk ends on a disc of `player`,
and `none` when it ends on an empty cell, the board edge, or (never in range)
exhausted fuel. -/
def walkCollect (b : Board) (player : ℤ) :
    ℤ → ℤ → ℤ → ℤ → Nat → Option (List (ℤ × ℤ))
  | _, _, _, _, 0 => none
  | nr, nc, dr, dc, fuel + 1 =>
    if inBd nr nc then
      if getCell b nr nc = 0 then none
      else if getCell b nr nc = player then some []
      else
        match walkCollect b player (nr + dr) (nc + dc) dr dc fuel with
        | some rest => some ((nr, nc) :: rest)
        | none => none
    else none

/-- `Othello.make_move`: place the disc, then for each direction flip the
collected run when it ends on a disc of `player`.  The direction loop reads
the board as mutated by the flips of earlier directions, so the board is
threaded through the fold. -/
def make_move (b : Board) (row col player : ℤ) : Board :=
  directions.foldl
    (fun bb d =>
      if inBd (row + d.1) (col + d.2) ∧
          getCell bb (row + d.1) (col + d.2) = -player then
        match walkCollect bb player (row + d.1) (col + d.2) d.1 d.2 16 with
        | some flips => flips.foldl (fun b2 f => setCell b2 f.1 f.2 player) bb
        | none => bb
      else bb)
    (setCell b row col player)

/-- `OthelloAI.apply_move`: place the disc and return the list of positions
whose capture the move completes.  Note that, unlike `make_move`, this
function never writes the flips to the board: its whole board mutation is
the single placement. -/
def apply_move (b : Board) (move : ℤ × ℤ) (player : ℤ) :
    List (ℤ × ℤ) × Board :=
  let b1 := setCell b move.1 move.2 player
  (directions.flatMap fun d =>
    if inBd (move.1 + d.1) (move.2 + d.2) ∧
        getCell b1 (move.1 + d.1) (move.2 + d.2) = -player then
      (walkCollect b1 player (move.1 + d.1) (move.2 + d.2) d.1 d.2 16).getD []
    else [], b1)

/-- `OthelloAI.undo_move`: blank the placed cell and hand every recorded flip
position back to the opponent of `player`. -/
def undo_move (b : Board) (move : ℤ × ℤ) (player : ℤ)
    (flips : List (ℤ × ℤ)) : Board :=
  flips.foldl (fun bb f => setCell bb f.1 f.2 (-player))
    (setCell b move.1 move.2 0)

/-- The four integer quantities computed by `OthelloAI.evaluate_board`, in
source order: coin parity, mobility, corner occupancy, edge occupancy, all
read with `cp = self.game.current_player` at call time. -/
def evalTerms (b : Board) (cp : ℤ) : ℤ × ℤ × ℤ × ℤ :=
  let playerCount : ℤ :=
    ((List.range 8).flatMap fun r => (List.range 8).filter fun c =>
      getCell b (r : ℤ) (c : ℤ) = cp).length
  let oppCount : ℤ :=
    ((List.range 8).flatMap fun r => (List.range 8).filter fun c =>
      getCell b (r : ℤ) (c : ℤ) = -cp).length
  let mobility : ℤ :=
    (valid_moves b cp).length - (valid_moves b (-cp)).length
  let corner : ℤ :=
    getCell b 0 0 + getCell b 0 7 + getCell b 7 0 + getCell b 7 7
  let edge : ℤ :=
    (([0, 7] : List ℤ).flatMap fun i =>
      ((List.range 6).map fun j => getCell b i ((j : ℤ) + 1))).sum +
    (((List.range 6).map fun i =>
      getCell b ((i : ℤ) + 1) 0 + getCell b ((i : ℤ) + 1) 7)).sum
  (playerCount - oppCount, mobility, corner, edge)

/-- `OthelloAI.evaluate_board`: the running float `score`, accumulated as in
the source (`score += coin_parity; score += 2*mobility; score += 5*corners;
score += 2.5*edges`).  Pure: it reads the board and `current_player` and
mutates nothing. -/
def evaluate_board (b : Board) (cp : ℤ) : ℚ :=
  let t := evalTerms b cp
  (((0 : ℚ) + (t.1 : ℚ)) + 2 * (t.2.1 : ℚ)) + 5 * (t.2.2.1 : ℚ)
    + 2.5 * (t.2.2.2 : ℚ)

/-- The maximizing `for move in valid_moves` loop of `OthelloAI.minimax`,
with the recursive call abstracted as `f`: track `max_eval` in `acc`, raise
`alpha`, and break out as soon as `beta ≤ alpha`. -/
def maxLoopP (f : Score → Score → (ℤ × ℤ) → Score) :
    List (ℤ × ℤ) → Score → Score → Score → Score
  | [], _, _, acc => acc
  | m :: rest, alpha, beta, acc =>
    let e := f alpha beta m
    let acc' := max acc e
    let alpha' := max alpha e
    if beta ≤ alpha' then acc' else maxLoopP f rest alpha' beta acc'

/-- The minimizing loop of `OthelloAI.minimax`, with the recursive call
abstracted as `f`: track `min_eval` in `acc`, lower `beta`, break when
`beta ≤ alpha`. -/
def minLoopP (f : Score → Score → (ℤ × ℤ) → Score) :
    List (ℤ × ℤ) → Score → Score → Score → Score
  | [], _, _, acc => acc
  | m :: rest, alpha, beta, acc =>
    let e := f alpha beta m
    let acc' := min acc e
    let beta' := min beta e
    if beta' ≤ alpha then acc' else minLoopP f rest alpha beta' acc'

/-- The maximizing loop of `OthelloAI.minimax` with the board mutation made
explicit: each iteration applies the move to the shared game, recurses on the
mutated game, undoes the move on the game returned by the recursion (reading
`current_player` afresh, as the source does), and threads the resulting game
to the next iteration. -/
def maxLoopSt (rec : Score → Score → Game → Score × Game) :
    List (ℤ × ℤ) → Score → Score → Score → Game → Score × Game
  | [], _, _, acc, g => (acc, g)
  | m :: rest, alpha, beta, acc, g =>
    let fb := apply_move g.board m g.current_player
    let eg := rec alpha beta ⟨fb.2, g.current_player⟩
    let g2 : Game :=
      ⟨undo_move eg.2.board m eg.2.current_player fb.1, eg.2.current_player⟩
    let acc' := max acc eg.1
    let alpha' := max alpha eg.1
    if beta ≤ alpha' then (acc', g2)
    else maxLoopSt rec rest alpha' beta acc' g2

/-- The minimizing loop of `OthelloAI.minimax` with the board mutation made
explicit; the mover is `-current_player`. -/
def minLoopSt (rec : Score → Score → Game → Score × Game) :
    List (ℤ × ℤ) → Score → Score → Score → Game → Score × Game
  | [], _, _, acc, g => (acc, g)
  | m :: rest, alpha, beta, acc, g =>
    let fb := apply_move g.board m (-g.current_player)
    let eg := rec alpha beta ⟨fb.2, g.current_player⟩
    let g2 : Game :=
      ⟨undo_move eg.2.board m (-eg.2.current_player) fb.1, eg.2.current_player⟩
    let acc' := min acc eg.1
    let beta' := min beta eg.1
    if beta' ≤ alpha then (acc', g2)
    else minLoopSt rec rest alpha beta' acc' g2

/-- `OthelloAI.minimax` with the shared mutable game threaded explicitly:
returns the score together with the state of the game object on return.
The mover comes from the global `current_player` combined with the
`maximizing` flag; a leaf (depth 0 or mover without moves) returns
`evaluate_board(board, current_player)`; `max_eval` starts at `-inf` and
`min_eval` at `+inf`. -/
def minimax : Nat → Bool → Score → Score → Game → Score × Game
  | 0, _, _, _, g => (toScore (evaluate_board g.board g.current_player), g)
  | d + 1, maximizing, alpha, beta, g =>
    let moves := valid_moves g.board
      (if maximizing then g.current_player else -g.current_player)
    if moves = [] then
      (toScore (evaluate_board g.board g.current_player), g)
    else if maximizing then maxLoopSt (minimax d false) moves alpha beta ⊥ g
    else minLoopSt (minimax d true) moves alpha beta ⊤ g

/-- Score-only form of `minimax`: identical branching and pruning, with the
child game states recomputed by `apply_move` instead of threaded through an
undo.  The theorem `minimax_eq_pure` shows it agrees with `minimax` on valid
games. -/
def minimaxP : Nat → Bool → Score → Score → Game → Score
  | 0, _, _, _, g => toScore (evaluate_board g.board g.current_player)
  | d + 1, maximizing, alpha, beta, g =>
    let moves := valid_moves g.board
      (if maximizing then g.current_player else -g.current_player)
    if moves = [] then toScore (evaluate_board g.board g.current_player)
    else if maximizing then
      maxLoopP (fun a b m => minimaxP d false a b
          ⟨(apply_move g.board m g.current_player).2, g.current_player⟩)
        moves alpha beta ⊥
    else
      minLoopP (fun a b m => minimaxP d true a b
          ⟨(apply_move g.board m (-g.current_player)).2, g.current_player⟩)
        moves alpha beta ⊤

/-- The unpruned exhaustive minimax over the same tree: same leaves, same
mover derivation, same children, but every child is examined and no
alpha/beta window exists.  This is the reference point of the alpha-beta
equivalence property. -/
def minimaxFull : Nat → Bool → Game → Score
  | 0, _, g => toScore (evaluate_board g.board g.current_player)
  | d + 1, maximizing, g =>
    let moves := valid_moves g.board
      (if maximizing then g.current_player else -g.current_player)
    if moves = [] then toScore (evaluate_board g.board g.current_player)
    else if maximizing then
      (moves.map fun m => minimaxFull d false
        ⟨(apply_move g.board m g.current_player).2, g.current_player⟩).foldl
        max ⊥
    else
      (moves.map fun m => minimaxFull d true
        ⟨(apply_move g.board m (-g.current_player)).2, g.current_player⟩).foldl
        min ⊤

/-- Spec-side variant of the search in which the evaluation perspective is an
explicit parameter `persp`, threaded unchanged into every recursive call and
used at every terminal node, while the mover is still derived from `cp`.
Comparing the code against this definition makes the fixed evaluation
perspective of the search visible. -/
def minimaxPersp : Nat → Bool → Score → Score → Board → ℤ → ℤ → Score
  | 0, _, _, _, b, _, persp => toScore (evaluate_board b persp)
  | d + 1, maximizing, alpha, beta, b, cp, persp =>
    let moves := valid_moves b (if maximizing then cp else -cp)
    if moves = [] then toScore (evaluate_board b persp)
    else if maximizing then
      maxLoopP (fun a be m =>
          minimaxPersp d false a be (apply_move b m cp).2 cp persp)
        moves alpha beta ⊥
    else
      minLoopP (fun a be m =>
          minimaxPersp d true a be (apply_move b m (-cp)).2 cp persp)
        moves alpha beta ⊤

/-- The `for move in ...` loop of `OthelloAI.best_move`: apply the move,
switch the turn, search with `maximizing=False` and the default full window,
switch back, undo (with `current_player` read after the switch-back), and
keep the move whenever its score strictly beats `best_eval`. -/
def bestLoopSt (d : Nat) :
    List (ℤ × ℤ) → Score → Option (ℤ × ℤ) → Game → Option (ℤ × ℤ) × Game
  | [], _, best, g => (best, g)
  | m :: rest, bestEval, best, g =>
    let fb := apply_move g.board m g.current_player
    let eg := minimax d false ⊥ ⊤ ⟨fb.2, -g.current_player⟩
    let g2 : Game := ⟨eg.2.board, -eg.2.current_player⟩
    let g3 : Game :=
      ⟨undo_move g2.board m g2.current_player fb.1, g2.current_player⟩
    if bestEval < eg.1 then bestLoopSt d rest eg.1 (some m) g3
    else bestLoopSt d rest bestEval best g3

/-- `OthelloAI.best_move`: scan the root moves of `current_player`, searching
each at depth `depth - 1`; `best_eval` starts at `-inf` and `best` at `None`.
Faithful for `depth ≥ 1` (the Python function recurses unboundedly below
depth 1, which the game loop never requests). -/
def best_move (depth : Nat) (g : Game) : Option (ℤ × ℤ) × Game :=
  bestLoopSt (depth - 1) (valid_moves g.board g.current_player) ⊥ none g

/-- Spec-side driver loop: score every root move of `P` by the explicit
fixed-perspective search, with perspective `-P` — the opponent of the player
the driver was invoked for. -/
def bestLoopPersp (d : Nat) (b : Board) (P : ℤ) :
    List (ℤ × ℤ) → Score → Option (ℤ × ℤ) → Option (ℤ × ℤ)
  | [], _, best => best
  | m :: rest, bestEval, best =>
    let e := minimaxPersp d false ⊥ ⊤ (apply_move b m P).2 (-P) (-P)
    if bestEval < e then bestLoopPersp d b P rest e (some m)
    else bestLoopPersp d b P rest bestEval best

/-- Spec-side driver: `best_move` rewritten with the evaluation perspective
made explicit (always `-current_player`, fixed across the whole search). -/
def bestMovePersp (depth : Nat) (g : Game) : Option (ℤ × ℤ) :=
  bestLoopPersp (depth - 1) g.board g.current_player
    (valid_moves g.board g.current_player) ⊥ none

/-! ### Cell-level lemmas -/

theorem coe_toNat_of_inBd {r c : ℤ} (h : inBd r c) :
    ((r.toNat : ℤ) = r) ∧ ((c.toNat : ℤ) = c) := by
  obtain ⟨h1, h2, h3, h4⟩ := h
  exact ⟨Int.toNat_of_nonneg h1, Int.toNat_of_nonneg h3⟩

theorem getCell_eq_apply {b : Board} {r c : ℤ} (h : inBd r c) :
    getCell b r c = b ⟨r.toNat, by obtain ⟨h1, h2, h3, h4⟩ := h; omega⟩
      ⟨c.toNat, by obtain ⟨h1, h2, h3, h4⟩ := h; omega⟩ := by
  unfold getCell
  exact dif_pos h

theorem getCell_setCell_same {b : Board} {r c v : ℤ} (h : inBd r c) :
    getCell (setCell b r c v) r c = v := by
  rw [getCell_eq_apply h]
  unfold setCell
  rw [if_pos]
  constructor
  · exact (coe_toNat_of_inBd h).1
  · exact (coe_toNat_of_inBd h).2

theorem getCell_setCell_ne {b : Board} {r c v r' c' : ℤ}
    (h : ¬(r' = r ∧ c' = c)) :
    getCell (setCell b r c v) r' c' = getCell b r' c' := by
  unfold getCell
  by_cases hb : 0 ≤ r' ∧ r' < 8 ∧ 0 ≤ c' ∧ c' < 8
  · rw [dif_pos hb, dif_pos hb]
    unfold setCell
    rw [if_neg]
    intro ⟨e1, e2⟩
    apply h
    constructor
    · rw [← e1]; exact (Int.toNat_of_nonneg hb.1).symm
    · rw [← e2]; exact (Int.toNat_of_nonneg hb.2.2.1).symm
  · rw [dif_neg hb, dif_neg hb]

theorem setCell_setCell {b : Board} {r c v w : ℤ} :
    setCell (setCell b r c v) r c w = setCell b r c w := by
  funext i j
  unfold setCell
  by_cases h : ((i : ℤ) = r ∧ (j : ℤ) = c)
  · rw [if_pos h, if_pos h]
  · rw [if_neg h, if_neg h, if_neg h]

theorem getCell_fin (b : Board) (i j : Fin 8) :
    getCell b (i : ℤ) (j : ℤ) = b i j := by
  have h : inBd (i : ℤ) (j : ℤ) := by
    unfold inBd
    have hi := i.isLt
    have hj := j.isLt
    omega
  rw [getCell_eq_apply h]
  simp

theorem setCell_of_get {b : Board} {r c v : ℤ}
    (h : getCell b r c = v) : setCell b r c v = b := by
  funext i j
  unfold setCell
  by_cases hc : ((i : ℤ) = r ∧ (j : ℤ) = c)
  · rw [if_pos hc]
    obtain ⟨e1, e2⟩ := hc
    subst e1
    subst e2
    rw [← getCell_fin b i j]
    exact h.symm
  · rw [if_neg hc]

theorem valid_get {b : Board} (hb : ValidBoard b) {r c : ℤ} (h : inBd r c) :
    getCell b r c = 0 ∨ getCell b r c = 1 ∨ getCell b r c = -1 := by
  rw [getCell_eq_apply h]
  exact hb _ _

theorem ValidBoard_setCell {b : Board} (hb : ValidBoard b) {r c v : ℤ}
    (hv : v = 0 ∨ v = 1 ∨ v = -1) : ValidBoard (setCell b r c v) := by
  intro i j
  unfold setCell
  by_cases h : ((i : ℤ) = r ∧ (j : ℤ) = c)
  · rw [if_pos h]; exact hv
  · rw [if_neg h]; exact hb i j

/-! ### The flip record of `apply_move` -/

theorem walkCollect_mem {b : Board} {p : ℤ} :
    ∀ (fuel : Nat) (nr nc dr dc : ℤ) (L : List (ℤ × ℤ)),
      walkCollect b p nr nc dr dc fuel = some L →
      ∀ x ∈ L, inBd x.1 x.2 ∧ getCell b x.1 x.2 ≠ 0 ∧ getCell b x.1 x.2 ≠ p := by
  intro fuel
  induction fuel with
  | zero => intro nr nc dr dc L h; exact absurd h (by simp [walkCollect])
  | succ n ih =>
    intro nr nc dr dc L h x hx
    unfold walkCollect at h
    by_cases h1 : inBd nr nc
    · rw [if_pos h1] at h
      by_cases h2 : getCell b nr nc = 0
      · rw [if_pos h2] at h; exact absurd h (by simp)
      · rw [if_neg h2] at h
        by_cases h3 : getCell b nr nc = p
        · rw [if_pos h3] at h
          obtain rfl : ([] : List (ℤ × ℤ)) = L := Option.some.inj h
          exact absurd hx (List.not_mem_nil x)
        · rw [if_neg h3] at h
          cases hw : walkCollect b p (nr + dr) (nc + dc) dr dc n with
          | none => rw [hw] at h; exact absurd h (by simp)
          | some rest =>
            rw [hw] at h
            obtain rfl : (nr, nc) :: rest = L := Option.some.inj h
            rcases List.mem_cons.mp hx with rfl | hx'
            · exact ⟨h1, h2, h3⟩
            · exact ih (nr + dr) (nc + dc) dr dc rest hw x hx'
    · rw [if_neg h1] at h; exact absurd h (by simp)

theorem apply_move_flips {b : Board} {m : ℤ × ℤ} {p : ℤ}
    (hb : ValidBoard b) (hp : p = 1 ∨ p = -1) (hm : inBd m.1 m.2) :
    ∀ f ∈ (apply_move b m p).1,
      inBd f.1 f.2 ∧ ¬(f.1 = m.1 ∧ f.2 = m.2) ∧ getCell b f.1 f.2 = -p := by
  intro f hf
  have hb1 : ValidBoard (setCell b m.1 m.2 p) :=
    ValidBoard_setCell hb (by rcases hp with h | h <;> simp [h])
  unfold apply_move at hf
  simp only [List.mem_flatMap] at hf
  obtain ⟨d, _, hfd⟩ := hf
  have hwalk : ∃ L, walkCollect (setCell b m.1 m.2 p) p
      (m.1 + d.1) (m.2 + d.2) d.1 d.2 16 = some L ∧ f ∈ L := by
    by_cases hc : inBd (m.1 + d.1) (m.2 + d.2) ∧
        getCell (setCell b m.1 m.2 p) (m.1 + d.1) (m.2 + d.2) = -p
    · rw [if_pos hc] at hfd
      cases hw : walkCollect (setCell b m.1 m.2 p) p
          (m.1 + d.1) (m.2 + d.2) d.1 d.2 16 with
      | none => rw [hw] at hfd; exact absurd hfd (List.not_mem_nil f)
      | some L => rw [hw] at hfd; exact ⟨L, rfl, hfd⟩
    · rw [if_neg hc] at hfd; exact absurd hfd (List.not_mem_nil f)
  obtain ⟨L, hw, hfL⟩ := hwalk
  obtain ⟨hfbd, hne0, hnep⟩ := walkCollect_mem 16 _ _ _ _ L hw f hfL
  have hfne : ¬(f.1 = m.1 ∧ f.2 = m.2) := by
    intro ⟨e1, e2⟩
    apply hnep
    rw [e1, e2]
    exact getCell_setCell_same hm
  refine ⟨hfbd, hfne, ?_⟩
  have hget : getCell (setCell b m.1 m.2 p) f.1 f.2 = getCell b f.1 f.2 :=
    getCell_setCell_ne hfne
  rw [hget] at hne0 hnep
  rcases valid_get hb hfbd with h | h | h
  · exact absurd h hne0
  · rcases hp with rfl | rfl
    · exact absurd h hnep
    · rw [h]
      decide
  · rcases hp with rfl | rfl
    · rw [h]
    · exact absurd h hnep

/-! ### `valid_moves` membership -/

theorem valid_moves_mem {b : Board} {p : ℤ} {m : ℤ × ℤ}
    (hm : m ∈ valid_moves b p) : inBd m.1 m.2 ∧ getCell b m.1 m.2 = 0 := by
  unfold valid_moves at hm
  rw [List.mem_dedup] at hm
  simp only [List.mem_flatMap] at hm
  obtain ⟨r, hr, hm⟩ := hm
  obtain ⟨c, hc, hm⟩ := hm
  rw [List.mem_range] at hr hc
  by_cases h0 : getCell b (r : ℤ) (c : ℤ) = 0
  · rw [if_pos h0] at hm
    simp only [List.mem_map] at hm
    obtain ⟨d, _, rfl⟩ := hm
    exact ⟨⟨by omega, by omega, by omega, by omega⟩, h0⟩
  · rw [if_neg h0] at hm
    exact absurd hm (List.not_mem_nil m)

theorem valid_moves_nodup (b : Board) (p : ℤ) : (valid_moves b p).Nodup :=
  List.nodup_dedup _

/-! ### Exact restoration of `apply_move` by `undo_move` -/

theorem foldl_setCell_id {v : ℤ} :
    ∀ (L : List (ℤ × ℤ)) (b : Board),
      (∀ f ∈ L, getCell b f.1 f.2 = v) →
      L.foldl (fun bb f => setCell bb f.1 f.2 v) b = b := by
  intro L
  induction L with
  | nil => intro b _; rfl
  | cons f L ih =>
    intro b h
    have hf : setCell b f.1 f.2 v = b :=
      setCell_of_get (h f (List.mem_cons_self f L))
    rw [List.foldl_cons, hf]
    exact ih b (fun x hx => h x (List.mem_cons_of_mem f hx))

theorem apply_undo {b : Board} {m : ℤ × ℤ} {p : ℤ}
    (hb : ValidBoard b) (hp : p = 1 ∨ p = -1) (hm : m ∈ valid_moves b p) :
    undo_move (apply_move b m p).2 m p (apply_move b m p).1 = b := by
  obtain ⟨hbd, h0⟩ := valid_moves_mem hm
  have h2 : (apply_move b m p).2 = setCell b m.1 m.2 p := rfl
  unfold undo_move
  rw [h2, setCell_setCell, setCell_of_get h0]
  apply foldl_setCell_id
  intro f hf
  exact (apply_move_flips hb hp hbd f hf).2.2

theorem ValidBoard_apply {b : Board} (hb : ValidBoard b) {m : ℤ × ℤ}
    {p : ℤ} (hp : p = 1 ∨ p = -1) : ValidBoard (apply_move b m p).2 :=
  ValidBoard_setCell hb (by rcases hp with rfl | rfl <;> simp)

/-! ### The search restores the shared game: stateful = pure -/

theorem maxLoopSt_eq
    (recSt : Score → Score → Game → Score × Game)
    (recP : Score → Score → Game → Score)
    (hrec : ∀ a be g, ValidGame g → recSt a be g = (recP a be g, g)) :
    ∀ (ms : List (ℤ × ℤ)) (alpha beta acc : Score) (g : Game),
      ValidGame g →
      (∀ m ∈ ms, m ∈ valid_moves g.board g.current_player) →
      maxLoopSt recSt ms alpha beta acc g =
        (maxLoopP (fun a be m => recP a be
            ⟨(apply_move g.board m g.current_player).2, g.current_player⟩)
          ms alpha beta acc, g) := by
  intro ms
  induction ms with
  | nil => intro alpha beta acc g hg hsub; rfl
  | cons m rest ih =>
    intro alpha beta acc g hg hsub
    have hchild : ValidGame
        ⟨(apply_move g.board m g.current_player).2, g.current_player⟩ :=
      ⟨ValidBoard_apply hg.1 hg.2, hg.2⟩
    have hundo : undo_move (apply_move g.board m g.current_player).2 m
        g.current_player (apply_move g.board m g.current_player).1 =
        g.board :=
      apply_undo hg.1 hg.2 (hsub m (List.mem_cons_self m rest))
    simp only [maxLoopSt, maxLoopP]
    rw [hrec _ _ _ hchild]
    simp only
    rw [hundo]
    by_cases hcut : beta ≤ max alpha (recP alpha beta
        ⟨(apply_move g.board m g.current_player).2, g.current_player⟩)
    · rw [if_pos hcut, if_pos hcut]
    · rw [if_neg hcut, if_neg hcut]
      exact ih _ _ _ g hg
        (fun x hx => hsub x (List.mem_cons_of_mem m hx))

theorem minLoopSt_eq
    (recSt : Score → Score → Game → Score × Game)
    (recP : Score → Score → Game → Score)
    (hrec : ∀ a be g, ValidGame g → recSt a be g = (recP a be g, g)) :
    ∀ (ms : List (ℤ × ℤ)) (alpha beta acc : Score) (g : Game),
      ValidGame g →
      (∀ m ∈ ms, m ∈ valid_moves g.board (-g.current_player)) →
      minLoopSt recSt ms alpha beta acc g =
        (minLoopP (fun a be m => recP a be
            ⟨(apply_move g.board m (-g.current_player)).2, g.current_player⟩)
          ms alpha beta acc, g) := by
  intro ms
  induction ms with
  | nil => intro alpha beta acc g hg hsub; rfl
  | cons m rest ih =>
    intro alpha beta acc g hg hsub
    have hpneg : -g.current_player = 1 ∨ -g.current_player = -1 := by
      rcases hg.2 with h | h <;> rw [h] <;> [right; left] <;> rfl
    have hchild : ValidGame
        ⟨(apply_move g.board m (-g.current_player)).2, g.current_player⟩ :=
      ⟨ValidBoard_apply hg.1 hpneg, hg.2⟩
    have hundo : undo_move (apply_move g.board m (-g.current_player)).2 m
        (-g.current_player) (apply_move g.board m (-g.current_player)).1 =
        g.board :=
      apply_undo hg.1 hpneg (hsub m (List.mem_cons_self m rest))
    simp only [minLoopSt, minLoopP]
    rw [hrec _ _ _ hchild]
    simp only
    rw [hundo]
    by_cases hcut : min beta (recP alpha beta
        ⟨(apply_move g.board m (-g.current_player)).2, g.current_player⟩)
        ≤ alpha
    · rw [if_pos hcut, if_pos hcut]
    · rw [if_neg hcut, if_neg hcut]
      exact ih _ _ _ g hg
        (fun x hx => hsub x (List.mem_cons_of_mem m hx))

theorem minimax_eq_pure :
    ∀ (d : Nat) (maximizing : Bool) (alpha beta : Score) (g : Game),
      ValidGame g →
      minimax d maximizing alpha beta g =
        (minimaxP d maximizing alpha beta g, g) := by
  intro d
  induction d with
  | zero => intro maximizing alpha beta g _; rfl
  | succ d ih =>
    intro maximizing alpha beta g hg
    cases maximizing with
    | true =>
      simp only [minimax, minimaxP, if_true]
      by_cases hmv : valid_moves g.board g.current_player = []
      · rw [if_pos hmv, if_pos hmv]
      · rw [if_neg hmv, if_neg hmv]
        exact maxLoopSt_eq _ _ (fun a be g' hg' => ih false a be g' hg')
          _ _ _ _ g hg (fun m hm => hm)
    | false =>
      simp only [minimax, minimaxP, Bool.false_eq_true, if_false]
      by_cases hmv : valid_moves g.board (-g.current_player) = []
      · rw [if_pos hmv, if_pos hmv]
      · rw [if_neg hmv, if_neg hmv]
        exact minLoopSt_eq _ _ (fun a be g' hg' => ih true a be g' hg')
          _ _ _ _ g hg (fun m hm => hm)

/-! ### Folding `max`/`min` over scores -/

theorem le_foldl_max : ∀ (l : List Score) (a : Score), a ≤ l.foldl max a := by
  intro l
  induction l with
  | nil => intro a; exact le_refl a
  | cons x l ih =>
    intro a
    rw [List.foldl_cons]
    exact le_trans (le_max_left a x) (ih (max a x))

theorem foldl_max_mono : ∀ (l : List Score) {a b : Score}, a ≤ b →
    l.foldl max a ≤ l.foldl max b := by
  intro l
  induction l with
  | nil => intro a b h; exact h
  | cons x l ih =>
    intro a b h
    rw [List.foldl_cons, List.foldl_cons]
    exact ih (max_le_max h (le_refl x))

theorem foldl_max_absorb : ∀ (l : List Score) (a x : Score),
    l.foldl max (max a x) = max a (l.foldl max x) := by
  intro l
  induction l with
  | nil => intro a x; rfl
  | cons c l ih =>
    intro a x
    rw [List.foldl_cons, List.foldl_cons, max_assoc, ih]

theorem foldl_max_decomp (l : List Score) (a : Score) :
    l.foldl max a = max a (l.foldl max ⊥) := by
  rw [← foldl_max_absorb]
  rw [max_eq_left bot_le]

theorem foldl_min_le : ∀ (l : List Score) (a : Score), l.foldl min a ≤ a := by
  intro l
  induction l with
  | nil => intro a; exact le_refl a
  | cons x l ih =>
    intro a
    rw [List.foldl_cons]
    exact le_trans (ih (min a x)) (min_le_left a x)

theorem foldl_min_mono : ∀ (l : List Score) {a b : Score}, a ≤ b →
    l.foldl min a ≤ l.foldl min b := by
  intro l
  induction l with
  | nil => intro a b h; exact h
  | cons x l ih =>
    intro a b h
    rw [List.foldl_cons, List.foldl_cons]
    exact ih (min_le_min h (le_refl x))

theorem foldl_min_absorb : ∀ (l : List Score) (a x : Score),
    l.foldl min (min a x) = min a (l.foldl min x) := by
  intro l
  induction l with
  | nil => intro a x; rfl
  | cons c l ih =>
    intro a x
    rw [List.foldl_cons, List.foldl_cons, min_assoc, ih]

theorem foldl_min_decomp (l : List Score) (a : Score) :
    l.foldl min a = min a (l.foldl min ⊤) := by
  rw [← foldl_min_absorb]
  rw [min_eq_left le_top]

theorem acc_le_maxLoopP (f : Score → Score → (ℤ × ℤ) → Score) :
    ∀ (ms : List (ℤ × ℤ)) (alpha beta acc : Score),
      acc ≤ maxLoopP f ms alpha beta acc := by
  intro ms
  induction ms with
  | nil => intro alpha beta acc; exact le_refl acc
  | cons m rest ih =>
    intro alpha beta acc
    simp only [maxLoopP]
    by_cases hcut : beta ≤ max alpha (f alpha beta m)
    · rw [if_pos hcut]; exact le_max_left acc _
    · rw [if_neg hcut]
      exact le_trans (le_max_left acc _) (ih _ _ _)

theorem minLoopP_le_acc (f : Score → Score → (ℤ × ℤ) → Score) :
    ∀ (ms : List (ℤ × ℤ)) (alpha beta acc : Score),
      minLoopP f ms alpha beta acc ≤ acc := by
  intro ms
  induction ms with
  | nil => intro alpha beta acc; exact le_refl acc
  | cons m rest ih =>
    intro alpha beta acc
    simp only [minLoopP]
    by_cases hcut : min beta (f alpha beta m) ≤ alpha
    · rw [if_pos hcut]; exact min_le_left acc _
    · rw [if_neg hcut]
      exact le_trans (ih _ _ _) (min_le_left acc _)

/-- The fail-soft relation between a windowed alpha-beta result `v` and the
true minimax value `t`: inside the window they agree, and outside it `v` is
a one-sided bound on `t`. -/
def failSoft (alpha beta v t : Score) : Prop :=
  (v ≤ alpha → t ≤ v) ∧ (beta ≤ v → v ≤ t) ∧ (alpha < v → v < beta → v = t)

theorem maxLoopP_failSoft
    (f : Score → Score → (ℤ × ℤ) → Score) (tval : (ℤ × ℤ) → Score)
    (hrec : ∀ (a be : Score) (m : ℤ × ℤ), a < be →
      failSoft a be (f a be m) (tval m)) :
    ∀ (ms : List (ℤ × ℤ)) (alpha beta acc : Score),
      alpha < beta → acc ≤ alpha →
      failSoft alpha beta (maxLoopP f ms alpha beta acc)
        ((ms.map tval).foldl max acc) := by
  intro ms
  induction ms with
  | nil =>
    intro alpha beta acc hab hacc
    exact ⟨fun _ => le_refl _, fun _ => le_refl _, fun _ _ => rfl⟩
  | cons m rest ih =>
    intro alpha beta acc hab hacc
    obtain ⟨hc1, hc2, hc3⟩ := hrec alpha beta m hab
    simp only [maxLoopP, List.map_cons, List.foldl_cons]
    by_cases hcut : beta ≤ max alpha (f alpha beta m)
    · rw [if_pos hcut]
      have hbe : beta ≤ f alpha beta m := by
        rcases le_max_iff.mp hcut with h | h
        · exact absurd h (not_le.mpr hab)
        · exact h
      have hacc_e : acc ≤ f alpha beta m :=
        le_trans hacc (le_trans hab.le hbe)
      rw [max_eq_right hacc_e]
      refine ⟨?_, ?_, ?_⟩
      · intro hv
        exact absurd (lt_of_lt_of_le hab hbe) (not_lt.mpr hv)
      · intro _
        exact le_trans (hc2 hbe)
          (le_trans (le_max_right acc (tval m)) (le_foldl_max _ _))
      · intro _ h2
        exact absurd hbe (not_le.mpr h2)
    · rw [if_neg hcut]
      have hab2 : max alpha (f alpha beta m) < beta := not_le.mp hcut
      have hacc2 : max acc (f alpha beta m) ≤ max alpha (f alpha beta m) :=
        max_le_max hacc (le_refl _)
      by_cases he : f alpha beta m ≤ alpha
      · have halpha2 : max alpha (f alpha beta m) = alpha := max_eq_left he
        have hte : tval m ≤ f alpha beta m := hc1 he
        rw [halpha2]
        rw [halpha2] at hacc2
        obtain ⟨hl1, hl2, hl3⟩ :=
          ih alpha beta (max acc (f alpha beta m)) hab hacc2
        have hmono : (rest.map tval).foldl max (max acc (tval m)) ≤
            (rest.map tval).foldl max (max acc (f alpha beta m)) :=
          foldl_max_mono _ (max_le_max (le_refl acc) hte)
        refine ⟨?_, ?_, ?_⟩
        · intro hv
          exact le_trans hmono (hl1 hv)
        · intro hv
          have h4 := hl2 hv
          rw [foldl_max_decomp] at h4
          rw [foldl_max_decomp]
          rcases le_max_iff.mp h4 with h | h
          · exact absurd (le_trans h hacc2)
              (not_le.mpr (lt_of_lt_of_le hab hv))
          · exact le_trans h (le_max_right _ _)
        · intro h1 h2
          have h4 := hl3 h1 h2
          rw [foldl_max_decomp] at h4
          rw [foldl_max_decomp]
          rcases le_total ((rest.map tval).foldl max ⊥)
              (max acc (f alpha beta m)) with hRX | hXR
          · exfalso
            rw [max_eq_left hRX] at h4
            have hra : maxLoopP f rest alpha beta
                (max acc (f alpha beta m)) ≤ alpha := by
              rw [h4]; exact hacc2
            exact absurd h1 (not_lt.mpr hra)
          · rw [max_eq_right hXR] at h4
            have hY : max acc (tval m) ≤ (rest.map tval).foldl max ⊥ := by
              refine le_trans (max_le_max (le_refl acc) hte) ?_
              refine le_trans hacc2 (le_of_lt ?_)
              rw [← h4]
              exact h1
            rw [max_eq_right hY]
            exact h4
      · push_neg at he
        have hee : f alpha beta m < beta :=
          lt_of_le_of_lt (le_max_right alpha _) hab2
        have hte : f alpha beta m = tval m := hc3 he hee
        rw [← hte]
        obtain ⟨hl1, hl2, hl3⟩ :=
          ih (max alpha (f alpha beta m)) beta
            (max acc (f alpha beta m)) hab2 hacc2
        have hge : max acc (f alpha beta m) ≤
            maxLoopP f rest (max alpha (f alpha beta m)) beta
              (max acc (f alpha beta m)) :=
          acc_le_maxLoopP f rest _ _ _
        refine ⟨?_, ?_, ?_⟩
        · intro hv
          have h5 : f alpha beta m ≤ alpha :=
            le_trans (le_trans (le_max_right acc _) hge) hv
          exact absurd he (not_lt.mpr h5)
        · intro hv
          exact hl2 hv
        · intro h1 h2
          rcases lt_or_le (max alpha (f alpha beta m))
              (maxLoopP f rest (max alpha (f alpha beta m)) beta
                (max acc (f alpha beta m))) with hgt | hle
          · exact hl3 hgt h2
          · have h5 : f alpha beta m ≤
                maxLoopP f rest (max alpha (f alpha beta m)) beta
                  (max acc (f alpha beta m)) :=
              le_trans (le_max_right acc _) hge
            have h6 : maxLoopP f rest (max alpha (f alpha beta m)) beta
                (max acc (f alpha beta m)) ≤ f alpha beta m :=
              le_trans hle (le_of_eq (max_eq_right he.le))
            have h7 := hl1 hle
            have h8 : max acc (f alpha beta m) ≤
                (rest.map tval).foldl max (max acc (f alpha beta m)) :=
              le_foldl_max _ _
            refine le_antisymm ?_ h7
            refine le_trans (le_antisymm h6 h5).le ?_
            exact le_trans (le_max_right acc _) h8

theorem minLoopP_failSoft
    (f : Score → Score → (ℤ × ℤ) → Score) (tval : (ℤ × ℤ) → Score)
    (hrec : ∀ (a be : Score) (m : ℤ × ℤ), a < be →
      failSoft a be (f a be m) (tval m)) :
    ∀ (ms : List (ℤ × ℤ)) (alpha beta acc : Score),
      alpha < beta → beta ≤ acc →
      failSoft alpha beta (minLoopP f ms alpha beta acc)
        ((ms.map tval).foldl min acc) := by
  intro ms
  induction ms with
  | nil =>
    intro alpha beta acc hab hacc
    exact ⟨fun _ => le_refl _, fun _ => le_refl _, fun _ _ => rfl⟩
  | cons m rest ih =>
    intro alpha beta acc hab hacc
    obtain ⟨hc1, hc2, hc3⟩ := hrec alpha beta m hab
    simp only [minLoopP, List.map_cons, List.foldl_cons]
    by_cases hcut : min beta (f alpha beta m) ≤ alpha
    · rw [if_pos hcut]
      have hea : f alpha beta m ≤ alpha := by
        rcases min_le_iff.mp hcut with h | h
        · exact absurd h (not_le.mpr hab)
        · exact h
      have hacc_e : f alpha beta m ≤ acc :=
        le_trans hea (le_trans hab.le hacc)
      rw [min_eq_right hacc_e]
      refine ⟨?_, ?_, ?_⟩
      · intro _
        refine le_trans (foldl_min_le _ _) ?_
        exact le_trans (min_le_right acc (tval m)) (hc1 hea)
      · intro hv
        exact absurd (lt_of_le_of_lt hea hab) (not_lt.mpr hv)
      · intro h1 _
        exact absurd hea (not_le.mpr h1)
    · rw [if_neg hcut]
      have hab2 : alpha < min beta (f alpha beta m) := not_le.mp hcut
      by_cases he : beta ≤ f alpha beta m
      · have hbeta2 : min beta (f alpha beta m) = beta := min_eq_left he
        have hte : f alpha beta m ≤ tval m := hc2 he
        rw [hbeta2]
        have hacc2 : beta ≤ min acc (f alpha beta m) := le_min hacc he
        obtain ⟨hl1, hl2, hl3⟩ :=
          ih alpha beta (min acc (f alpha beta m)) hab hacc2
        have hmono : (rest.map tval).foldl min
              (min acc (f alpha beta m)) ≤
            (rest.map tval).foldl min (min acc (tval m)) :=
          foldl_min_mono _ (min_le_min (le_refl acc) hte)
        refine ⟨?_, ?_, ?_⟩
        · intro hv
          have h4 := hl1 hv
          rw [foldl_min_decomp] at h4
          rw [foldl_min_decomp]
          rcases min_le_iff.mp h4 with h | h
          · exact absurd (le_trans hacc2 h)
              (not_le.mpr (lt_of_le_of_lt hv hab))
          · exact le_trans (min_le_right _ _) h
        · intro hv
          exact le_trans (hl2 hv) hmono
        · intro h1 h2
          have h4 := hl3 h1 h2
          rw [foldl_min_decomp] at h4
          rw [foldl_min_decomp]
          rcases le_total (min acc (f alpha beta m))
              ((rest.map tval).foldl min ⊤) with hXR | hRX
          · exfalso
            rw [min_eq_left hXR] at h4
            have hrb : beta ≤ minLoopP f rest alpha beta
                (min acc (f alpha beta m)) := by
              rw [h4]; exact hacc2
            exact absurd h2 (not_lt.mpr hrb)
          · rw [min_eq_right hRX] at h4
            have hY : (rest.map tval).foldl min ⊤ ≤ min acc (tval m) := by
              refine le_trans ?_ (min_le_min (le_refl acc) hte)
              refine le_trans (le_of_lt ?_) hacc2
              rw [← h4]
              exact h2
            rw [min_eq_right hY]
            exact h4
      · push_neg at he
        have hae : alpha < f alpha beta m :=
          lt_of_lt_of_le hab2 (min_le_right beta _)
        have hte : f alpha beta m = tval m := hc3 hae he
        rw [← hte]
        have hacc2 : min beta (f alpha beta m) ≤
            min acc (f alpha beta m) :=
          min_le_min hacc (le_refl _)
        obtain ⟨hl1, hl2, hl3⟩ :=
          ih alpha (min beta (f alpha beta m))
            (min acc (f alpha beta m)) hab2 hacc2
        have hge : minLoopP f rest alpha (min beta (f alpha beta m))
              (min acc (f alpha beta m)) ≤
            min acc (f alpha beta m) :=
          minLoopP_le_acc f rest _ _ _
        refine ⟨?_, ?_, ?_⟩
        · intro hv
          exact hl1 hv
        · intro hv
          have h5 : beta ≤ f alpha beta m :=
            le_trans hv (le_trans hge (min_le_right acc _))
          exact absurd he (not_lt.mpr h5)
        · intro h1 h2
          rcases lt_or_le (minLoopP f rest alpha
              (min beta (f alpha beta m)) (min acc (f alpha beta m)))
              (min beta (f alpha beta m)) with hgt | hle
          · exact hl3 h1 hgt
          · have h5 : minLoopP f rest alpha (min beta (f alpha beta m))
                (min acc (f alpha beta m)) ≤ f alpha beta m :=
              le_trans hge (min_le_right acc _)
            have h6 : f alpha beta m ≤ minLoopP f rest alpha
                (min beta (f alpha beta m)) (min acc (f alpha beta m)) :=
              le_trans (le_of_eq (min_eq_right he.le).symm) hle
            have h7 := hl2 hle
            have h8 : (rest.map tval).foldl min
                (min acc (f alpha beta m)) ≤ min acc (f alpha beta m) :=
              foldl_min_le _ _
            refine le_antisymm h7 ?_
            refine le_trans ?_ (le_antisymm h5 h6).ge
            exact le_trans h8 (min_le_right acc _)

theorem failSoft_refl (alpha beta v : Score) : failSoft alpha beta v v :=
  ⟨fun _ => le_refl v, fun _ => le_refl v, fun _ _ => rfl⟩

theorem minimaxP_failSoft :
    ∀ (d : Nat) (maximizing : Bool) (alpha beta : Score) (g : Game),
      alpha < beta →
      failSoft alpha beta (minimaxP d maximizing alpha beta g)
        (minimaxFull d maximizing g) := by
  intro d
  induction d with
  | zero =>
    intro maximizing alpha beta g _
    exact failSoft_refl _ _ _
  | succ d ih =>
    intro maximizing alpha beta g hab
    cases maximizing with
    | true =>
      simp only [minimaxP, minimaxFull, if_true]
      by_cases hmv : valid_moves g.board g.current_player = []
      · rw [if_pos hmv, if_pos hmv]
        exact failSoft_refl _ _ _
      · rw [if_neg hmv, if_neg hmv]
        exact maxLoopP_failSoft
          (fun a be m => minimaxP d false a be
            ⟨(apply_move g.board m g.current_player).2, g.current_player⟩)
          (fun m => minimaxFull d false
            ⟨(apply_move g.board m g.current_player).2, g.current_player⟩)
          (fun a be m hab2 => ih false a be _ hab2)
          (valid_moves g.board g.current_player) alpha beta ⊥ hab bot_le
    | false =>
      simp only [minimaxP, minimaxFull, Bool.false_eq_true, if_false]
      by_cases hmv : valid_moves g.board (-g.current_player) = []
      · rw [if_pos hmv, if_pos hmv]
        exact failSoft_refl _ _ _
      · rw [if_neg hmv, if_neg hmv]
        exact minLoopP_failSoft
          (fun a be m => minimaxP d true a be
            ⟨(apply_move g.board m (-g.current_player)).2, g.current_player⟩)
          (fun m => minimaxFull d true
            ⟨(apply_move g.board m (-g.current_player)).2, g.current_player⟩)
          (fun a be m hab2 => ih true a be _ hab2)
          (valid_moves g.board (-g.current_player)) alpha beta ⊤ hab le_top

/-! ### The search value is always a finite number -/

/-- A score that is an actual number, not one of the two sentinels. -/
def isFin (v : Score) : Prop := v ≠ ⊥ ∧ v ≠ ⊤

theorem isFin_toScore (q : ℚ) : isFin (toScore q) := by
  constructor
  · exact WithBot.coe_ne_bot
  · intro h
    rw [show (⊤ : Score) = ((⊤ : WithTop ℚ) : Score) from rfl] at h
    exact WithTop.coe_ne_top (WithBot.coe_inj.mp h)

theorem isFin_max {a b : Score} (hb : isFin b) (ha : a = ⊥ ∨ isFin a) :
    isFin (max a b) := by
  rcases ha with rfl | ha
  · rw [max_eq_right bot_le]
    exact hb
  · rcases max_choice a b with h | h <;> rw [h]
    · exact ha
    · exact hb

theorem isFin_min {a b : Score} (hb : isFin b) (ha : a = ⊤ ∨ isFin a) :
    isFin (min a b) := by
  rcases ha with rfl | ha
  · rw [min_eq_right le_top]
    exact hb
  · rcases min_choice a b with h | h <;> rw [h]
    · exact ha
    · exact hb

theorem maxLoopP_isFin (f : Score → Score → (ℤ × ℤ) → Score)
    (hf : ∀ a be m, isFin (f a be m)) :
    ∀ (ms : List (ℤ × ℤ)) (alpha beta acc : Score),
      ((acc = ⊥ ∧ ms ≠ []) ∨ isFin acc) →
      isFin (maxLoopP f ms alpha beta acc) := by
  intro ms
  induction ms with
  | nil =>
    intro alpha beta acc hacc
    rcases hacc with ⟨_, hne⟩ | hok
    · exact absurd rfl hne
    · exact hok
  | cons m rest ih =>
    intro alpha beta acc hacc
    have hacc2 : isFin (max acc (f alpha beta m)) := by
      apply isFin_max (hf alpha beta m)
      rcases hacc with ⟨rfl, _⟩ | h
      · exact Or.inl rfl
      · exact Or.inr h
    simp only [maxLoopP]
    by_cases hcut : beta ≤ max alpha (f alpha beta m)
    · rw [if_pos hcut]
      exact hacc2
    · rw [if_neg hcut]
      exact ih _ _ _ (Or.inr hacc2)

theorem minLoopP_isFin (f : Score → Score → (ℤ × ℤ) → Score)
    (hf : ∀ a be m, isFin (f a be m)) :
    ∀ (ms : List (ℤ × ℤ)) (alpha beta acc : Score),
      ((acc = ⊤ ∧ ms ≠ []) ∨ isFin acc) →
      isFin (minLoopP f ms alpha beta acc) := by
  intro ms
  induction ms with
  | nil =>
    intro alpha beta acc hacc
    rcases hacc with ⟨_, hne⟩ | h
    · exact absurd rfl hne
    · exact h
  | cons m rest ih =>
    intro alpha beta acc hacc
    have hacc2 : isFin (min acc (f alpha beta m)) := by
      apply isFin_min (hf alpha beta m)
      rcases hacc with ⟨rfl, _⟩ | h
      · exact Or.inl rfl
      · exact Or.inr h
    simp only [minLoopP]
    by_cases hcut : min beta (f alpha beta m) ≤ alpha
    · rw [if_pos hcut]
      exact hacc2
    · rw [if_neg hcut]
      exact ih _ _ _ (Or.inr hacc2)

theorem minimaxP_isFin :
    ∀ (d : Nat) (maximizing : Bool) (alpha beta : Score) (g : Game),
      isFin (minimaxP d maximizing alpha beta g) := by
  intro d
  induction d with
  | zero =>
    intro maximizing alpha beta g
    exact isFin_toScore _
  | succ d ih =>
    intro maximizing alpha beta g
    cases maximizing with
    | true =>
      simp only [minimaxP, if_true]
      by_cases hmv : valid_moves g.board g.current_player = []
      · rw [if_pos hmv]
        exact isFin_toScore _
      · rw [if_neg hmv]
        exact maxLoopP_isFin _ (fun a be m => ih false a be _) _ alpha beta ⊥
          (Or.inl ⟨rfl, hmv⟩)
    | false =>
      simp only [minimaxP, Bool.false_eq_true, if_false]
      by_cases hmv : valid_moves g.board (-g.current_player) = []
      · rw [if_pos hmv]
        exact isFin_toScore _
      · rw [if_neg hmv]
        exact minLoopP_isFin _ (fun a be m => ih true a be _) _ alpha beta ⊤
          (Or.inl ⟨rfl, hmv⟩)

theorem minimaxP_eq_minimaxFull (d : Nat) (maximizing : Bool) (g : Game) :
    minimaxP d maximizing ⊥ ⊤ g = minimaxFull d maximizing g := by
  have hab : (⊥ : Score) < ⊤ := Ne.bot_lt (by simp)
  obtain ⟨h1, h2, h3⟩ := minimaxP_failSoft d maximizing ⊥ ⊤ g hab
  obtain ⟨hne_bot, hne_top⟩ := minimaxP_isFin d maximizing ⊥ ⊤ g
  exact h3 (Ne.bot_lt hne_bot) (Ne.lt_top hne_top)

/-! ### The evaluation perspective of the search is the `current_player`
field it was entered with -/

theorem maxLoopP_congr {f f2 : Score → Score → (ℤ × ℤ) → Score}
    (h : ∀ a be m, f a be m = f2 a be m) :
    ∀ (ms : List (ℤ × ℤ)) (alpha beta acc : Score),
      maxLoopP f ms alpha beta acc = maxLoopP f2 ms alpha beta acc := by
  intro ms
  induction ms with
  | nil => intro alpha beta acc; rfl
  | cons m rest ih =>
    intro alpha beta acc
    simp only [maxLoopP]
    rw [h alpha beta m]
    by_cases hcut : beta ≤ max alpha (f2 alpha beta m)
    · rw [if_pos hcut, if_pos hcut]
    · rw [if_neg hcut, if_neg hcut]
      exact ih _ _ _

theorem minLoopP_congr {f f2 : Score → Score → (ℤ × ℤ) → Score}
    (h : ∀ a be m, f a be m = f2 a be m) :
    ∀ (ms : List (ℤ × ℤ)) (alpha beta acc : Score),
      minLoopP f ms alpha beta acc = minLoopP f2 ms alpha beta acc := by
  intro ms
  induction ms with
  | nil => intro alpha beta acc; rfl
  | cons m rest ih =>
    intro alpha beta acc
    simp only [minLoopP]
    rw [h alpha beta m]
    by_cases hcut : min beta (f2 alpha beta m) ≤ alpha
    · rw [if_pos hcut, if_pos hcut]
    · rw [if_neg hcut, if_neg hcut]
      exact ih _ _ _

theorem minimaxP_eq_persp :
    ∀ (d : Nat) (maximizing : Bool) (alpha beta : Score) (b : Board)
      (p : ℤ),
      minimaxP d maximizing alpha beta ⟨b, p⟩ =
        minimaxPersp d maximizing alpha beta b p p := by
  intro d
  induction d with
  | zero => intro maximizing alpha beta b p; rfl
  | succ d ih =>
    intro maximizing alpha beta b p
    cases maximizing with
    | true =>
      simp only [minimaxP, minimaxPersp, if_true]
      by_cases hmv : valid_moves b p = []
      · rw [if_pos hmv, if_pos hmv]
      · rw [if_neg hmv, if_neg hmv]
        exact maxLoopP_congr (fun a be m => ih false a be _ p) _ alpha beta ⊥
    | false =>
      simp only [minimaxP, minimaxPersp, Bool.false_eq_true, if_false]
      by_cases hmv : valid_moves b (-p) = []
      · rw [if_pos hmv, if_pos hmv]
      · rw [if_neg hmv, if_neg hmv]
        exact minLoopP_congr (fun a be m => ih true a be _ p) _ alpha beta ⊤

/-! ### `best_move` restores the game and equals the explicit-perspective
driver -/

theorem bestLoopSt_eq (d : Nat) :
    ∀ (ms : List (ℤ × ℤ)) (bestEval : Score) (best : Option (ℤ × ℤ))
      (g : Game),
      ValidGame g →
      (∀ m ∈ ms, m ∈ valid_moves g.board g.current_player) →
      bestLoopSt d ms bestEval best g =
        (bestLoopPersp d g.board g.current_player ms bestEval best, g) := by
  intro ms
  induction ms with
  | nil => intro bestEval best g hg hsub; rfl
  | cons m rest ih =>
    intro bestEval best g hg hsub
    have hchild : ValidGame
        ⟨(apply_move g.board m g.current_player).2, -g.current_player⟩ := by
      refine ⟨ValidBoard_apply hg.1 hg.2, ?_⟩
      rcases hg.2 with h | h <;> rw [h] <;> [right; left] <;> rfl
    have hundo : undo_move (apply_move g.board m g.current_player).2 m
        g.current_player (apply_move g.board m g.current_player).1 =
        g.board :=
      apply_undo hg.1 hg.2 (hsub m (List.mem_cons_self m rest))
    simp only [bestLoopSt, bestLoopPersp]
    rw [minimax_eq_pure d false ⊥ ⊤ _ hchild]
    simp only [neg_neg]
    rw [hundo]
    rw [minimaxP_eq_persp d false ⊥ ⊤
      (apply_move g.board m g.current_player).2 (-g.current_player)]
    by_cases hlt : bestEval < minimaxPersp d false ⊥ ⊤
        (apply_move g.board m g.current_player).2 (-g.current_player)
        (-g.current_player)
    · rw [if_pos hlt, if_pos hlt]
      exact ih _ _ g hg (fun x hx => hsub x (List.mem_cons_of_mem m hx))
    · rw [if_neg hlt, if_neg hlt]
      exact ih _ _ g hg (fun x hx => hsub x (List.mem_cons_of_mem m hx))

theorem best_move_eq (depth : Nat) (g : Game) (hg : ValidGame g) :
    best_move depth g = (bestMovePersp depth g, g) :=
  bestLoopSt_eq (depth - 1) (valid_moves g.board g.current_player) ⊥ none g
    hg (fun _ hm => hm)

theorem bestLoopPersp_cases (d : Nat) (b : Board) (P : ℤ) :
    ∀ (ms : List (ℤ × ℤ)) (bestEval : Score) (best : Option (ℤ × ℤ)),
      bestLoopPersp d b P ms bestEval best = best ∨
        ∃ m ∈ ms, bestLoopPersp d b P ms bestEval best = some m := by
  intro ms
  induction ms with
  | nil => intro bestEval best; exact Or.inl rfl
  | cons m rest ih =>
    intro bestEval best
    simp only [bestLoopPersp]
    by_cases hlt : bestEval < minimaxPersp d false ⊥ ⊤
        (apply_move b m P).2 (-P) (-P)
    · rw [if_pos hlt]
      rcases ih (minimaxPersp d false ⊥ ⊤ (apply_move b m P).2 (-P) (-P))
          (some m) with h | ⟨m2, hm2, h⟩
      · exact Or.inr ⟨m, List.mem_cons_self m rest, h⟩
      · exact Or.inr ⟨m2, List.mem_cons_of_mem m hm2, h⟩
    · rw [if_neg hlt]
      rcases ih bestEval best with h | ⟨m2, hm2, h⟩
      · exact Or.inl h
      · exact Or.inr ⟨m2, List.mem_cons_of_mem m hm2, h⟩

theorem bestLoopPersp_ne_none (d : Nat) (b : Board) (P : ℤ) :
    ∀ (ms : List (ℤ × ℤ)) (bestEval : Score) (best : Option (ℤ × ℤ)),
      (best ≠ none ∨ (bestEval = ⊥ ∧ ms ≠ [])) →
      bestLoopPersp d b P ms bestEval best ≠ none := by
  intro ms
  induction ms with
  | nil =>
    intro bestEval best h
    rcases h with h | ⟨_, hne⟩
    · exact h
    · exact absurd rfl hne
  | cons m rest ih =>
    intro bestEval best h
    simp only [bestLoopPersp]
    by_cases hlt : bestEval < minimaxPersp d false ⊥ ⊤
        (apply_move b m P).2 (-P) (-P)
    · rw [if_pos hlt]
      exact ih _ _ (Or.inl (by simp))
    · rw [if_neg hlt]
      rcases h with h | ⟨rfl, _⟩
      · exact ih _ _ (Or.inl h)
      · exfalso
        have hfin : isFin (minimaxPersp d false ⊥ ⊤
            (apply_move b m P).2 (-P) (-P)) := by
          rw [← minimaxP_eq_persp]
          exact minimaxP_isFin d false ⊥ ⊤ _
        exact hlt (Ne.bot_lt hfin.1)

/-! ### The evaluator formula (spec-side terms) -/

/-- Number of cells holding the value `v`. -/
def discCount (b : Board) (v : ℤ) : ℕ :=
  ((List.range 8).flatMap fun r => (List.range 8).filter fun c =>
    getCell b (r : ℤ) (c : ℤ) = v).length

/-- Spec-side coin parity: the perspective player's disc count minus the
opponent's. -/
def coin_paritySpec (b : Board) (p : ℤ) : ℤ :=
  (discCount b p : ℤ) - (discCount b (-p) : ℤ)

/-- Spec-side mobility: the perspective player's legal-move count minus the
opponent's. -/
def mobilitySpec (b : Board) (p : ℤ) : ℤ :=
  ((valid_moves b p).length : ℤ) - ((valid_moves b (-p)).length : ℤ)

/-- Spec-side corner occupancy: the signed sum over the four corner cells in
raw `+1`/`-1` encoding; it takes no perspective argument. -/
def corner_occupancySpec (b : Board) : ℤ :=
  getCell b 0 0 + getCell b 0 7 + getCell b 7 0 + getCell b 7 7

/-- Spec-side edge occupancy: the signed sum over the 24 non-corner edge
cells (rows 0 and 7 at columns 1–6, columns 0 and 7 at rows 1–6) in raw
encoding; it takes no perspective argument. -/
def edge_occupancySpec (b : Board) : ℤ :=
  (((List.range 6).map fun j => getCell b 0 ((j : ℤ) + 1)).sum +
    ((List.range 6).map fun j => getCell b 7 ((j : ℤ) + 1)).sum) +
  (((List.range 6).map fun i => getCell b ((i : ℤ) + 1) 0).sum +
    ((List.range 6).map fun i => getCell b ((i : ℤ) + 1) 7).sum)

theorem sum_map_add (f g : ℤ → ℤ) :
    ∀ l : List ℤ, (l.map fun i => f i + g i).sum = (l.map f).sum + (l.map g).sum := by
  intro l
  induction l with
  | nil => rfl
  | cons x l ih =>
    simp only [List.map_cons, List.sum_cons, ih]
    ring

theorem edge_decomp (b : Board) :
    ((([0, 7] : List ℤ).flatMap fun i =>
      ((List.range 6).map fun j => getCell b i ((j : ℤ) + 1))).sum +
    (((List.range 6).map fun i =>
      getCell b ((i : ℤ) + 1) 0 + getCell b ((i : ℤ) + 1) 7)).sum)
    = edge_occupancySpec b := by
  unfold edge_occupancySpec
  rw [sum_map_add (fun i => getCell b (i + 1) 0)
    (fun i => getCell b (i + 1) 7)]
  simp only [List.flatMap_cons, List.flatMap_nil, List.sum_append,
    List.append_nil, List.sum_nil]

/-! ### Occupied-cell count -/

/-- The number of cells occupied by a disc of either colour. -/
def occupiedCount (b : Board) : ℕ :=
  (Finset.univ.filter fun rc : Fin 8 × Fin 8 => b rc.1 rc.2 ≠ 0).card

theorem occupiedCount_setCell {b : Board} {r c v : ℤ} (hbd : inBd r c)
    (h0 : getCell b r c = 0) (hv : v ≠ 0) :
    occupiedCount (setCell b r c v) = occupiedCount b + 1 := by
  obtain ⟨a1, a2, a3, a4⟩ := hbd
  have hbd2 : inBd r c := ⟨a1, a2, a3, a4⟩
  have hij : ∃ i j : Fin 8, ((i : ℤ) = r ∧ (j : ℤ) = c) := by
    refine ⟨⟨r.toNat, by omega⟩, ⟨c.toNat, by omega⟩, ?_, ?_⟩
    · exact Int.toNat_of_nonneg a1
    · exact Int.toNat_of_nonneg a3
  obtain ⟨i, j, hi, hj⟩ := hij
  have hbij : b i j = 0 := by
    rw [← getCell_fin b i j, hi, hj]
    exact h0
  have hset : (Finset.univ.filter fun rc : Fin 8 × Fin 8 =>
      setCell b r c v rc.1 rc.2 ≠ 0) =
      insert (i, j) (Finset.univ.filter fun rc : Fin 8 × Fin 8 =>
        b rc.1 rc.2 ≠ 0) := by
    ext x
    simp only [Finset.mem_insert, Finset.mem_filter, Finset.mem_univ,
      true_and]
    unfold setCell
    by_cases hx : ((x.1 : ℤ) = r ∧ (x.2 : ℤ) = c)
    · rw [if_pos hx]
      have hxe : x = (i, j) := by
        obtain ⟨hx1, hx2⟩ := hx
        have e1 : x.1 = i := by
          apply Fin.ext
          have b1 : ((x.1 : ℕ) : ℤ) = r := hx1
          have b2 : ((i : ℕ) : ℤ) = r := hi
          omega
        have e2 : x.2 = j := by
          apply Fin.ext
          have b1 : ((x.2 : ℕ) : ℤ) = c := hx2
          have b2 : ((j : ℕ) : ℤ) = c := hj
          omega
        rw [← e1, ← e2]
      simp [hxe, hv]
    · rw [if_neg hx]
      have hxe : ¬ (x = (i, j)) := by
        intro hxe
        apply hx
        rw [hxe]
        exact ⟨hi, hj⟩
      simp [hxe]
  unfold occupiedCount
  rw [hset, Finset.card_insert_of_not_mem]
  simp [hbij]

/-! ### `make_move` keeps the placed disc -/

theorem foldl_setCell_other {p r c : ℤ} :
    ∀ (L : List (ℤ × ℤ)) (bb : Board),
      (∀ f ∈ L, ¬(f.1 = r ∧ f.2 = c)) →
      getCell (L.foldl (fun b2 f => setCell b2 f.1 f.2 p) bb) r c =
        getCell bb r c := by
  intro L
  induction L with
  | nil => intro bb _; rfl
  | cons f L ih =>
    intro bb h
    rw [List.foldl_cons]
    rw [ih _ (fun x hx => h x (List.mem_cons_of_mem f hx))]
    apply getCell_setCell_ne
    intro ⟨e1, e2⟩
    exact h f (List.mem_cons_self f L) ⟨e1.symm ▸ rfl, e2.symm ▸ rfl⟩

theorem make_move_placed {b : Board} {r c p : ℤ} (hbd : inBd r c) :
    getCell (make_move b r c p) r c = p := by
  unfold make_move
  have key : ∀ (ds : List (ℤ × ℤ)) (bb : Board), getCell bb r c = p →
      getCell (ds.foldl (fun bb d =>
        if inBd (r + d.1) (c + d.2) ∧
            getCell bb (r + d.1) (c + d.2) = -p then
          match walkCollect bb p (r + d.1) (c + d.2) d.1 d.2 16 with
          | some flips =>
            flips.foldl (fun b2 f => setCell b2 f.1 f.2 p) bb
          | none => bb
        else bb) bb) r c = p := by
    intro ds
    induction ds with
    | nil => intro bb h; exact h
    | cons d ds ih =>
      intro bb h
      rw [List.foldl_cons]
      apply ih
      by_cases hc : inBd (r + d.1) (c + d.2) ∧
          getCell bb (r + d.1) (c + d.2) = -p
      · rw [if_pos hc]
        cases hw : walkCollect bb p (r + d.1) (c + d.2) d.1 d.2 16 with
        | none => exact h
        | some flips =>
          rw [foldl_setCell_other flips bb]
          · exact h
          · intro f hf he
            have := (walkCollect_mem 16 _ _ _ _ flips hw f hf).2.2
            apply this
            rw [he.1, he.2]
            exact h
      · rw [if_neg hc]
        exact h
  exact key directions (setCell b r c p) (getCell_setCell_same hbd)

/-! ### Code evaluator equals the spec formula -/

theorem evaluate_board_eq_formula (b : Board) (p : ℤ) :
    evaluate_board b p = (coin_paritySpec b p : ℚ)
      + 2 * (mobilitySpec b p : ℚ) + 5 * (corner_occupancySpec b : ℚ)
      + 2.5 * (edge_occupancySpec b : ℚ) := by
  rw [← edge_decomp b]
  simp only [evaluate_board, evalTerms, coin_paritySpec, mobilitySpec,
    corner_occupancySpec, discCount]
  push_cast
  ring

/-! ## The claims -/

/-- C2: for every valid game state, player `p` and move `m` in
`valid_moves p`, calling `apply_move m p` and then `undo_move m p r` with
the returned flip record restores the board to exactly its prior state,
cell for cell, and leaves `current_player` unchanged (neither function
touches it). -/
theorem C2_apply_undo_restores (g : Game) (p : ℤ) (m : ℤ × ℤ)
    (hg : ValidGame g) (hp : p = 1 ∨ p = -1)
    (hm : m ∈ valid_moves g.board p) :
    Game.mk (undo_move (apply_move g.board m p).2 m p
      (apply_move g.board m p).1) g.current_player = g := by
  rw [apply_undo hg.1 hp hm]

/-- Witness for C2 at the initial position with the opening move `(2, 4)`. -/
theorem C2_witness :
    ValidGame initialGame ∧ ((1 : ℤ) = 1 ∨ (1 : ℤ) = -1) ∧
    ((2 : ℤ), (4 : ℤ)) ∈ valid_moves initialGame.board 1 ∧
    Game.mk (undo_move (apply_move initialGame.board ((2 : ℤ), (4 : ℤ)) 1).2
      ((2 : ℤ), (4 : ℤ)) 1
      (apply_move initialGame.board ((2 : ℤ), (4 : ℤ)) 1).1)
      initialGame.current_player = initialGame :=
  ⟨by decide, by decide, by decide,
    C2_apply_undo_restores initialGame 1 ((2 : ℤ), (4 : ℤ))
      (by decide) (by decide) (by decide)⟩

/-- C6: every call to `minimax`, at any depth, flag and window, returns with
the shared game — board cells and `current_player` — exactly as at entry:
each recursive `apply_move` is matched by its `undo_move` before the call
returns. -/
theorem C6_minimax_restores_game (d : Nat) (maximizing : Bool)
    (alpha beta : Score) (g : Game) (hg : ValidGame g) :
    (minimax d maximizing alpha beta g).2 = g := by
  rw [minimax_eq_pure d maximizing alpha beta g hg]

/-- Witness for C6 at the initial position, depth 2. -/
theorem C6_witness :
    ValidGame initialGame ∧
    (minimax 2 true ⊥ ⊤ initialGame).2 = initialGame :=
  ⟨by decide, C6_minimax_restores_game 2 true ⊥ ⊤ initialGame (by decide)⟩

/-- C3: for every valid game state and depth, `minimax` with alpha-beta
pruning called on the initial window `alpha = -inf`, `beta = +inf` returns
the same score as the unpruned exhaustive minimax `minimaxFull` of the same
depth over the same tree. -/
theorem C3_alphabeta_equals_unpruned (d : Nat) (maximizing : Bool)
    (g : Game) (hg : ValidGame g) :
    (minimax d maximizing ⊥ ⊤ g).1 = minimaxFull d maximizing g := by
  rw [minimax_eq_pure d maximizing ⊥ ⊤ g hg]
  exact minimaxP_eq_minimaxFull d maximizing g

/-- Witness for C3 at the initial position, depth 1. -/
theorem C3_witness :
    ValidGame initialGame ∧
    (minimax 1 true ⊥ ⊤ initialGame).1 = minimaxFull 1 true initialGame :=
  ⟨by decide, C3_alphabeta_equals_unpruned 1 true initialGame (by decide)⟩

theorem nodup_filter_length_one {m : ℤ × ℤ} :
    ∀ l : List (ℤ × ℤ), l.Nodup → m ∈ l →
      (l.filter fun x => x = m).length = 1 := by
  intro l
  induction l with
  | nil => intro _ h; exact absurd h (List.not_mem_nil m)
  | cons x t ih =>
    intro hnd hm
    rcases List.nodup_cons.mp hnd with ⟨hxt, hndt⟩
    rw [List.filter_cons]
    by_cases hx : x = m
    · rw [if_pos (by simpa using hx)]
      have hnil : (t.filter fun y => decide (y = m)) = [] := by
        cases hfil : t.filter fun y => decide (y = m) with
        | nil => rfl
        | cons z zs =>
          exfalso
          have hz : z ∈ t.filter fun y => decide (y = m) := by
            rw [hfil]
            exact List.mem_cons_self z zs
          have hz2 := List.mem_filter.mp hz
          have hzm : z = m := by simpa using hz2.2
          apply hxt
          rw [hx, ← hzm]
          exact hz2.1
      simp [hnil]
    · rw [if_neg (by simpa using hx)]
      have hmt : m ∈ t := by
        rcases List.mem_cons.mp hm with h | h
        · exact absurd h.symm hx
        · exact h
      exact ih hndt hmt

/-- C7: every coordinate returned by `valid_moves` refers to an empty cell
of the board, and each qualifying coordinate appears exactly once in the
returned list (its occurrence count is one) regardless of how many
directions capture from it. -/
theorem C7_moves_empty_and_unique (b : Board) (p : ℤ) (m : ℤ × ℤ)
    (hm : m ∈ valid_moves b p) :
    getCell b m.1 m.2 = 0 ∧
      ((valid_moves b p).filter fun x => x = m).length = 1 :=
  ⟨(valid_moves_mem hm).2,
    nodup_filter_length_one _ (valid_moves_nodup b p) hm⟩

/-- Witness for C7 at the initial position with the move `(2, 4)`. -/
theorem C7_witness :
    ((2 : ℤ), (4 : ℤ)) ∈ valid_moves initialBoard 1 ∧
    (getCell initialBoard 2 4 = 0 ∧
      ((valid_moves initialBoard 1).filter
        fun x => x = ((2 : ℤ), (4 : ℤ))).length = 1) :=
  ⟨by decide,
    C7_moves_empty_and_unique initialBoard 1 ((2 : ℤ), (4 : ℤ)) (by decide)⟩

/-- C9: for depth ≥ 1 (the only depths the game loop requests) and a valid
game state, `best_move` returns `none` exactly when the player to move has
zero legal moves at the root, and any returned move belongs to
`valid_moves current_player`. -/
theorem C9_best_move_none_iff (depth : Nat) (g : Game)
    (hg : ValidGame g) (hd : 1 ≤ depth) :
    ((best_move depth g).1 = none ↔
      valid_moves g.board g.current_player = []) ∧
    ∀ m : ℤ × ℤ, (best_move depth g).1 = some m →
      m ∈ valid_moves g.board g.current_player := by
  have hbm : (best_move depth g).1 = bestLoopPersp (depth - 1) g.board
      g.current_player (valid_moves g.board g.current_player) ⊥ none := by
    rw [best_move_eq depth g hg]
    rfl
  constructor
  · constructor
    · intro h
      by_contra hne
      rw [hbm] at h
      exact bestLoopPersp_ne_none (depth - 1) g.board g.current_player
        (valid_moves g.board g.current_player) ⊥ none
        (Or.inr ⟨rfl, hne⟩) h
    · intro h
      rw [hbm, h]
      rfl
  · intro m hm
    rw [hbm] at hm
    rcases bestLoopPersp_cases (depth - 1) g.board g.current_player
        (valid_moves g.board g.current_player) ⊥ none with h | ⟨m2, hm2, h⟩
    · rw [h] at hm
      exact absurd hm (by simp)
    · rw [h] at hm
      obtain rfl := Option.some.inj hm
      exact hm2

/-- Witness for C9 at the initial position, depth 1. -/
theorem C9_witness :
    (ValidGame initialGame ∧ 1 ≤ 1) ∧
    (((best_move 1 initialGame).1 = none ↔
      valid_moves initialGame.board initialGame.current_player = []) ∧
    ∀ m : ℤ × ℤ, (best_move 1 initialGame).1 = some m →
      m ∈ valid_moves initialGame.board initialGame.current_player) :=
  ⟨⟨by decide, by decide⟩,
    C9_best_move_none_iff 1 initialGame (by decide) (by decide)⟩

/-- C8: for every board and perspective player, the evaluator returns
exactly `coin_parity + 2·mobility + 5·corner_occupancy +
2.5·edge_occupancy`, with coin parity and mobility relative to the
perspective player and the corner and edge terms raw signed sums that take
no perspective argument; the evaluator is a pure function of the board and
the perspective. -/
theorem C8_evaluator_formula (b : Board) (p : ℤ) :
    evaluate_board b p = (coin_paritySpec b p : ℚ)
      + 2 * (mobilitySpec b p : ℚ) + 5 * (corner_occupancySpec b : ℚ)
      + 2.5 * (edge_occupancySpec b : ℚ) :=
  evaluate_board_eq_formula b p

/-- C4 (counterexample): on the initial board the claimed set
`{(2,3),(3,2),(4,5),(5,4)}` is wrong for player +1: `(2,3)` is not a legal
move of +1 while `(2,4)` (absent from the claimed set) is.  The claimed set
is in fact `valid_moves` of player −1 on this board. -/
theorem C4_counterexample :
    ((2 : ℤ), (3 : ℤ)) ∉ valid_moves initialBoard 1 ∧
    ((2 : ℤ), (4 : ℤ)) ∈ valid_moves initialBoard 1 := by
  constructor
  · decide
  · decide

/-- C4 (amended): on the initial configuration (four centre discs preset
with +1 on the main diagonal, player +1 to move), `valid_moves(+1)` equals
exactly the set `{(2,4),(3,5),(4,2),(5,3)}`; the list below is duplicate
free, so this is the exact list of legal opening moves. -/
theorem C4_amended_initial_moves :
    valid_moves initialBoard 1 =
      [((2 : ℤ), (4 : ℤ)), (3, 5), (4, 2), (5, 3)] := by
  decide

/-- C5 (counterexample): occupied cells grow by exactly 1, not by at least
2: from the 4-disc initial board, applying the legal move `(2, 4)` for +1
yields a 5-disc board.  Flips never change the occupancy of a cell, and
`apply_move` does not even commit its flips to the board. -/
theorem C5_counterexample :
    ((2 : ℤ), (4 : ℤ)) ∈ valid_moves initialBoard 1 ∧
    occupiedCount initialBoard = 4 ∧
    occupiedCount (apply_move initialBoard ((2 : ℤ), (4 : ℤ)) 1).2 = 5 := by
  refine ⟨by decide, by decide, by decide⟩

/-- C5 (amended): for every board, nonzero player `p` and move `m` drawn
from `valid_moves p`, the number of occupied cells after `apply_move m p`
exceeds the number before by exactly 1 — the placed disc; no other cell
changes occupancy. -/
theorem C5_amended_occupied_plus_one (b : Board) (p : ℤ) (m : ℤ × ℤ)
    (hp : p ≠ 0) (hm : m ∈ valid_moves b p) :
    occupiedCount (apply_move b m p).2 = occupiedCount b + 1 := by
  obtain ⟨hbd, h0⟩ := valid_moves_mem hm
  have h2 : (apply_move b m p).2 = setCell b m.1 m.2 p := rfl
  rw [h2]
  exact occupiedCount_setCell hbd h0 hp

/-- Witness for the amended C5 at the initial position with move `(2, 4)`. -/
theorem C5_witness :
    ((1 : ℤ) ≠ 0 ∧ ((2 : ℤ), (4 : ℤ)) ∈ valid_moves initialBoard 1) ∧
    occupiedCount (apply_move initialBoard ((2 : ℤ), (4 : ℤ)) 1).2 =
      occupiedCount initialBoard + 1 :=
  ⟨⟨by decide, by decide⟩,
    C5_amended_occupied_plus_one initialBoard 1 ((2 : ℤ), (4 : ℤ))
      (by decide) (by decide)⟩

/-- C10 (counterexample): `make_move` and `apply_move` do not perform the
same board mutation.  From the initial board, both receive the legal move
`(2, 4)` of player +1, whose capture runs through `(3, 4)`: `make_move`
flips that disc to +1, while `apply_move` leaves it at −1 (it returns the
flip list but never writes the flips). -/
theorem C10_counterexample :
    ((2 : ℤ), (4 : ℤ)) ∈ valid_moves initialBoard 1 ∧
    getCell (make_move initialBoard 2 4 1) 3 4 = 1 ∧
    getCell (apply_move initialBoard ((2 : ℤ), (4 : ℤ)) 1).2 3 4 = -1 := by
  refine ⟨by decide, by decide, by decide⟩

/-- C10 (amended): started from the same board, the two move appliers agree
only on the placement: both set the cell `(row, col)` to `player`, and
`apply_move`'s entire board mutation is exactly that single placement (its
flip list is returned, not applied), whereas `make_move` additionally flips
the captured discs — so the final boards coincide at the placed cell but
differ at every genuinely flipped cell. -/
theorem C10_amended_placement_only (b : Board) (r c p : ℤ)
    (hbd : inBd r c) :
    (apply_move b (r, c) p).2 = setCell b r c p ∧
    getCell (apply_move b (r, c) p).2 r c = p ∧
    getCell (make_move b r c p) r c = p := by
  refine ⟨rfl, ?_, make_move_placed hbd⟩
  have h2 : (apply_move b (r, c) p).2 = setCell b r c p := rfl
  rw [h2]
  exact getCell_setCell_same hbd

/-- Witness for the amended C10 at the initial position, move `(2, 4)`. -/
theorem C10_witness :
    inBd 2 4 ∧
    ((apply_move initialBoard ((2 : ℤ), (4 : ℤ)) 1).2 =
        setCell initialBoard 2 4 1 ∧
      getCell (apply_move initialBoard ((2 : ℤ), (4 : ℤ)) 1).2 2 4 = 1 ∧
      getCell (make_move initialBoard 2 4 1) 2 4 = 1) :=
  ⟨by decide, C10_amended_placement_only initialBoard 2 4 1 (by decide)⟩

/-- C1 (counterexample): inside a `best_move` search invoked for player +1
at the initial position, the root move `(2, 4)` is applied, the turn is
switched (so `current_player` becomes −1), and the depth-0 `minimax` call —
a node reachable during the `best_move 1` search — returns the static
evaluation taken for `current_player = -1`, the OPPONENT of the player
`best_move` was invoked for; that value differs from the evaluation for the
invoking player +1, so the evaluation is not from the invoker's
perspective. -/
theorem C1_counterexample :
    initialGame.current_player = 1 ∧
    ((2 : ℤ), (4 : ℤ)) ∈
      valid_moves initialGame.board initialGame.current_player ∧
    (minimax 0 false ⊥ ⊤
      ⟨(apply_move initialGame.board ((2 : ℤ), (4 : ℤ))
          initialGame.current_player).2,
        -initialGame.current_player⟩).1 =
      toScore (evaluate_board
        (apply_move initialGame.board ((2 : ℤ), (4 : ℤ)) 1).2 (-1)) ∧
    evaluate_board (apply_move initialGame.board ((2 : ℤ), (4 : ℤ)) 1).2
        (-1) ≠
      evaluate_board (apply_move initialGame.board ((2 : ℤ), (4 : ℤ)) 1).2
        1 := by
  refine ⟨rfl, by decide, rfl, ?_⟩
  have h1 : evalTerms
      (apply_move initialGame.board ((2 : ℤ), (4 : ℤ)) 1).2 (-1) =
      (-1, 2, 0, 0) := by decide
  have h2 : evalTerms
      (apply_move initialGame.board ((2 : ℤ), (4 : ℤ)) 1).2 1 =
      (1, -2, 0, 0) := by decide
  have e1 : evaluate_board
      (apply_move initialGame.board ((2 : ℤ), (4 : ℤ)) 1).2 (-1) = 3 := by
    simp only [evaluate_board]
    rw [h1]
    norm_num
  have e2 : evaluate_board
      (apply_move initialGame.board ((2 : ℤ), (4 : ℤ)) 1).2 1 = -3 := by
    simp only [evaluate_board]
    rw [h2]
    norm_num
  rw [e1, e2]
  norm_num

/-- C1 (amended): every terminal node of the search returns the static
evaluation taken for the `current_player` field of the game the search was
entered with, and that field is constant across the whole recursion; since
`best_move` switches the turn before calling `minimax`, the evaluation
perspective throughout a `best_move` search is the fixed OPPONENT
`-current_player` of the player `best_move` was invoked for — never the
invoker itself and never the node's varying local mover.  Formally, the
search equals the explicit-perspective search `minimaxPersp` whose
perspective argument is pinned to the entry `current_player`, and
`best_move` equals the driver `bestMovePersp` that searches every root move
with perspective `-current_player`. -/
theorem C1_amended_opponent_perspective (depth : Nat) (g : Game)
    (hg : ValidGame g) :
    (best_move depth g).1 = bestMovePersp depth g ∧
    ∀ (d : Nat) (maximizing : Bool) (alpha beta : Score) (b : Board),
      minimaxP d maximizing alpha beta ⟨b, -g.current_player⟩ =
        minimaxPersp d maximizing alpha beta b (-g.current_player)
          (-g.current_player) := by
  constructor
  · rw [best_move_eq depth g hg]
  · intro d maximizing alpha beta b
    exact minimaxP_eq_persp d maximizing alpha beta b (-g.current_player)

/-- Witness for the amended C1 at the initial position, depth 1. -/
theorem C1_witness :
    ValidGame initialGame ∧
    ((best_move 1 initialGame).1 = bestMovePersp 1 initialGame ∧
    ∀ (d : Nat) (maximizing : Bool) (alpha beta : Score) (b : Board),
      minimaxP d maximizing alpha beta
          ⟨b, -initialGame.current_player⟩ =
        minimaxPersp d maximizing alpha beta b
          (-initialGame.current_player) (-initialGame.current_player)) :=
  ⟨by decide, C1_amended_opponent_perspective 1 initialGame (by decide)⟩
